import Mathlib

set_option maxRecDepth 100000
set_option maxHeartbeats 2000000

/-!
Verification of the graphical-soundscape pipeline of
src/graphical_soundscapes/gs_utils.py.

Real numbers of the program are modelled as rationals, so arithmetic is
exact.  Spectrograms are lists of rows (a row per frequency bin, a column
per time frame), matching the orientation used by the code, where
peaks[:, 0] indexes the frequency axis fn and peaks[:, 1] the time axis tn.
-/

namespace GS

/-- Errors raised by the pipeline, named after the Python exceptions that
the code raises or lets propagate: ValueError from the threshold check and
from astype, AttributeError from a missing dataframe column, and the
loading errors of sound.load collapsed into one IO error. -/
inductive GSErr where
  | valueError
  | attributeError
  | ioError
deriving DecidableEq, Repr

/-- Number of columns of a matrix stored as a list of rows; numpy arrays
are rectangular, so the first row is representative. -/
def nCols (S : List (List ℚ)) : ℕ := (S.headD []).length

/-- Entry of a matrix at row i, column j, with an out-of-bounds default of
zero; all uses are guarded by in-bounds indices. -/
def cell (S : List (List ℚ)) (i j : ℕ) : ℚ := (S.getD i []).getD j 0

/-- Total number of entries, the size attribute of a numpy array. -/
def numel (S : List (List ℚ)) : ℕ := S.length * nCols S

/-- Minimum entry of the matrix, the Sxx.min() of the code; zero on an
empty matrix (numpy would raise there, and the claims never use it). -/
def matMin (S : List (List ℚ)) : ℚ := (S.flatten.min?).getD 0

/-- Chebyshev distance between two index pairs, the metric used by
peak detection with its default p-norm of infinity. -/
def chebDist (p q : ℕ × ℕ) : ℕ := max (Nat.dist p.1 q.1) (Nat.dist p.2 q.2)

/-- Maximum filter with a square footprint of radius d and border mode
nearest: at an in-bounds position this equals the maximum over the window
clipped to the image, because the replicated border values are copies of
in-window cells. -/
def maxFilter (S : List (List ℚ)) (d i j : ℕ) : ℚ :=
  let rows := (List.range S.length).filter (fun a => i ≤ a + d && a ≤ i + d)
  let cols := (List.range (nCols S)).filter (fun b => j ≤ b + d && b ≤ j + d)
  ((rows.product cols).map (fun p => cell S p.1 p.2)).foldr max (cell S i j)

/-- Whether the cell equals the maximum-filter response at its position,
the mask image == image_max of the peak finder. -/
def isWindowMax (S : List (List ℚ)) (d i j : ℕ) : Bool :=
  decide (cell S i j = maxFilter S d i j)

/-- Whether every cell of the matrix equals its window maximum; the peak
finder treats such a trivial (flat) image as having no peaks at all. -/
def allWindowMax (S : List (List ℚ)) (d : ℕ) : Bool :=
  (List.range S.length).all (fun i =>
    (List.range (nCols S)).all (fun j => isWindowMax S d i j))

/-- Peak-candidate mask of peak_local_max with default settings: a cell is
kept when it equals its window maximum, the image is not flat, the value
is strictly above the threshold, and the cell lies at least min_distance
away from every border (exclude_border defaults to min_distance).  When
the footprint or the image has a single element the mask degenerates to
the bare threshold test, as in the library. -/
def maskKept (S : List (List ℚ)) (d : ℕ) (thr : ℚ) (i j : ℕ) : Bool :=
  (if d = 0 || numel S == 1 then decide (thr < cell S i j)
   else isWindowMax S d i j && !(allWindowMax S d) && decide (thr < cell S i j))
  && (decide (d ≤ i) && decide (i + d < S.length)
      && decide (d ≤ j) && decide (j + d < nCols S))

/-- Candidate peaks listed in raster order, row index first. -/
def rasterCandidates (S : List (List ℚ)) (d : ℕ) (thr : ℚ) : List (ℕ × ℕ) :=
  ((List.range S.length).product (List.range (nCols S))).filter
    (fun p => maskKept S d thr p.1 p.2)

/-- Candidates sorted by decreasing intensity; the sort is stable, so ties
keep their raster order, matching the stable argsort of the library. -/
def sortedCandidates (S : List (List ℚ)) (d : ℕ) (thr : ℚ) : List (ℕ × ℕ) :=
  (rasterCandidates S d thr).insertionSort
    (fun p q => cell S q.1 q.2 ≤ cell S p.1 p.2)

/-- Greedy spacing pass of ensure_spacing, structurally recursive on a
fuel bound that dominates the length of the pending list: accept each
surviving candidate in order and drop every later candidate strictly
closer than d cells in Chebyshev distance; candidates at exactly d cells
are kept. -/
def ensureSpacingAux (d : ℕ) : ℕ → List (ℕ × ℕ) → List (ℕ × ℕ) → List (ℕ × ℕ)
  | 0, acc, _ => acc.reverse
  | _ + 1, acc, [] => acc.reverse
  | n + 1, acc, p :: rest =>
      ensureSpacingAux d n (p :: acc)
        (rest.filter (fun q => decide (d ≤ chebDist p q)))

/-- Greedy spacing pass started with enough fuel for the whole list. -/
def ensureSpacing (d : ℕ) (acc l : List (ℕ × ℕ)) : List (ℕ × ℕ) :=
  ensureSpacingAux d l.length acc l

/-- Model of skimage.feature.peak_local_max as called by the code:
positional image, min_distance and threshold_abs, all other parameters at
their defaults. -/
def peak_local_max (S : List (List ℚ)) (d : ℕ) (thr : ℚ) : List (ℕ × ℕ) :=
  ensureSpacing d [] (sortedCandidates S d thr)

/-- Model of spectrogram_local_max of gs_utils.py: validate the threshold
against the spectrogram minimum (raising ValueError when it is strictly
below), find the peaks, and map their raw indices back onto the time and
frequency axes.  The display branch and the ext argument only affect
plotting and are omitted. -/
def spectrogram_local_max (S : List (List ℚ)) (tn fn : List ℚ)
    (d : ℕ) (thr : ℚ) : Except GSErr (List ℚ × List ℚ) :=
  if thr < matMin S then Except.error GSErr.valueError
  else
    let peaks := peak_local_max S d thr
    Except.ok (peaks.map (fun p => tn.getD p.2 0), peaks.map (fun p => fn.getD p.1 0))

/-- Sorted list of distinct values, the behaviour of np.unique on a one
dimensional array. -/
def npUnique (l : List ℚ) : List ℚ := (l.dedup).insertionSort (· ≤ ·)

/-- Positional assignment count_peak[indices] = values of the code: walk
the frequency axis, write the next pending value at every position whose
frequency belongs to uniqs and zero elsewhere, and fail (as the numpy
shape check would) when the number of matching positions differs from the
number of pending values. -/
def assignCounts (uniqs : List ℚ) : List ℚ → List ℚ → Option (List ℚ)
  | [], [] => some []
  | [], _ :: _ => none
  | f :: fs, [] =>
      if f ∈ uniqs then none
      else (assignCounts uniqs fs []).map (fun r => (0 : ℚ) :: r)
  | f :: fs, v :: vs =>
      if f ∈ uniqs then (assignCounts uniqs fs vs).map (fun r => v :: r)
      else (assignCounts uniqs fs (v :: vs)).map (fun r => (0 : ℚ) :: r)

/-- Model of the density-row block of graphical_soundscape: count the
peaks at each distinct frequency (np.unique with return_counts), divide
the counts by the number of time frames, and scatter them over the full
frequency axis with np.isin, leaving the remaining bins at zero. -/
def count_peak (fn pf : List ℚ) (T : ℕ) : Option (List ℚ) :=
  let uniqs := npUnique pf
  assignCounts uniqs fn (uniqs.map (fun v => (pf.count v : ℚ) / (T : ℚ)))

/-- Hour label of a recording, the first two characters of its time field
cast to an integer, operating on the character list of the string; none
models the ValueError of astype on a string slice that is not a decimal
number. -/
def parseHour (t : String) : Option ℕ :=
  let cs := t.data.take 2
  if cs ≠ [] ∧ cs.all Char.isDigit then
    some (cs.foldl (fun n c => n * 10 + (c.toNat - Char.toNat '0')) 0)
  else none

/-- Column-wise mean of a list of equally long rows, the mean that pandas
applies inside each group: at every column position, the sum of the
entries divided by the number of rows. -/
def colMean (rows : List (List ℚ)) : List ℚ :=
  let m := (rows.map List.length).foldr max 0
  (List.range m).map (fun j =>
    ((rows.map (fun r => r.getD j 0)).sum) / (rows.length : ℚ))

/-- Model of res.groupby(time).mean(): one output row per distinct key, in
ascending key order, carrying the column-wise mean of the rows of that
group. -/
def groupbyMean (l : List (ℕ × List ℚ)) : List (ℕ × List ℚ) :=
  (((l.map Prod.fst).dedup).insertionSort (· ≤ ·)).map (fun h =>
    (h, colMean ((l.filter (fun p => p.1 == h)).map Prod.snd)))

/-- Sequential traversal in the Except monad: apply f left to right and
stop at the first error, mirroring a Python loop in which the first raised
exception propagates. -/
def mapME (f : α → Except ε β) : List α → Except ε (List β)
  | [] => Except.ok []
  | a :: l =>
      match f a with
      | Except.error e => Except.error e
      | Except.ok b =>
          match mapME f l with
          | Except.error e => Except.error e
          | Except.ok bs => Except.ok (b :: bs)

/-- Model of the two closing lines of graphical_soundscape: cast the first
two characters of every time field to an integer hour (any failure raises
and aborts), attach the hours to the density rows positionally, and group
by hour taking the mean. -/
def hourAggregate (l : List (String × List ℚ)) : Except GSErr (List (ℕ × List ℚ)) :=
  match mapME (fun p =>
    match parseHour p.1 with
    | some h => Except.ok h
    | none => Except.error GSErr.valueError) l with
  | Except.error e => Except.error e
  | Except.ok hours => Except.ok (groupbyMean (hours.zip (l.map Prod.snd)))

/-- Spectrogram data of one recording as produced by the external chain
sound.load, sound.resample, sound.spectrogram and util.power2dB; the
claims of the core pipeline treat that chain as an opaque collaborator
that either yields this data or fails to load. -/
structure AudioData where
  Sxx : List (List ℚ)
  tn : List ℚ
  fn : List ℚ
deriving DecidableEq, Repr

/-- One row of the input dataframe.  The fname field is an Option because
the code reads the column fname, which the documented input contract does
not require: a missing column makes the attribute access raise.  The audio
field is none when the audio file cannot be loaded or decoded. -/
structure Rec where
  path_audio : String
  time : String
  fname : Option String
  audio : Option AudioData
deriving DecidableEq, Repr

/-- Per-recording body of the loop of graphical_soundscape, in the order
of the code: the progress print reads the fname column (AttributeError
when absent), the audio is loaded (IO error when it cannot be), peaks are
found, and the density row over the full frequency axis is produced. -/
def processRec (d : ℕ) (thr : ℚ) (r : Rec) : Except GSErr (List ℚ) :=
  match r.fname with
  | none => Except.error GSErr.attributeError
  | some _ =>
      match r.audio with
      | none => Except.error GSErr.ioError
      | some a =>
          match spectrogram_local_max a.Sxx a.tn a.fn d thr with
          | Except.error e => Except.error e
          | Except.ok pks =>
              match count_peak a.fn pks.2 a.tn.length with
              | some row => Except.ok row
              | none => Except.error GSErr.valueError

/-- Model of graphical_soundscape: process the recordings sequentially
(the first raised error propagates and aborts the whole run, since the
loop has no exception handling), then derive the hour labels and group the
density rows by hour taking the mean.  The spectrogram parameters that are
only passed to the external collaborators are absorbed into the audio data
of each recording. -/
def graphical_soundscape (d : ℕ) (thr : ℚ) (df : List Rec) :
    Except GSErr (List (ℕ × List ℚ)) :=
  match mapME (processRec d thr) df with
  | Except.error e => Except.error e
  | Except.ok rows => hourAggregate ((df.map Rec.time).zip rows)

/-- Constant (flat) spectrogram with R rows, C columns and value c, the
shape of input used by the flat-spectrogram scenario. -/
def constMat (R C : ℕ) (c : ℚ) : List (List ℚ) :=
  List.replicate R (List.replicate C c)

/-! Helper lemmas about the sequential Except traversal. -/

theorem mapME_ok_of {α β ε : Type} {f : α → Except ε β} {g : α → β} :
    ∀ {l : List α}, (∀ a ∈ l, f a = Except.ok (g a)) →
      mapME f l = Except.ok (l.map g) := by
  intro l
  induction l with
  | nil => intro _; rfl
  | cons a t ih =>
      intro h
      have ha := h a (List.mem_cons_self a t)
      have ht := ih (fun x hx => h x (List.mem_cons_of_mem a hx))
      simp [mapME, ha, ht]

theorem mapME_mem_ok {α β ε : Type} {f : α → Except ε β} :
    ∀ {l : List α} {bs : List β}, mapME f l = Except.ok bs →
      ∀ a ∈ l, ∃ b, f a = Except.ok b := by
  intro l
  induction l with
  | nil => intro bs _ a ha; cases ha
  | cons a t ih =>
      intro bs h x hx
      rw [mapME] at h
      rcases hfa : f a with e | b
      · rw [hfa] at h; cases h
      · rw [hfa] at h
        rcases hmt : mapME f t with e | bt
        · rw [hmt] at h; cases h
        · rcases List.mem_cons.mp hx with rfl | hxt
          · exact ⟨b, hfa⟩
          · exact ih hmt x hxt

theorem mapME_error_append {α β ε : Type} {f : α → Except ε β} {r : α} {e : ε} :
    ∀ {l₁ : List α} (l₂ : List α),
      (∀ x ∈ l₁, ∃ b, f x = Except.ok b) → f r = Except.error e →
      mapME f (l₁ ++ r :: l₂) = Except.error e := by
  intro l₁
  induction l₁ with
  | nil => intro l₂ _ hr; simp [mapME, hr]
  | cons a t ih =>
      intro l₂ h hr
      obtain ⟨b, hb⟩ := h a (List.mem_cons_self a t)
      have ht := ih l₂ (fun x hx => h x (List.mem_cons_of_mem a hx)) hr
      simp [mapME, hb, ht]

/-- Claim C1.  The spec says an error is raised whenever threshold_abs is
at or below the spectrogram minimum.  The code checks a strict inequality,
so at exactly the minimum no error is raised: here the threshold 0 equals
the minimum of the spectrogram and the call succeeds, computing a (here
empty) peak set instead of raising. -/
theorem claim1_cex :
    matMin [[0, 0], [0, 10]] = (0 : ℚ) ∧
    spectrogram_local_max [[0, 0], [0, 10]] [0, 1] [0, 1] 1 0 =
      Except.ok ([], []) := by
  exact ⟨rfl, rfl⟩

/-- Claim C1, amended.  spectrogram_local_max raises its configuration
ValueError exactly when threshold_abs is strictly below the spectrogram
minimum; in particular no error is raised for any threshold strictly above
the minimum, and none is raised at exactly the minimum either. -/
theorem claim1_thm (S : List (List ℚ)) (tn fn : List ℚ) (d : ℕ) (thr : ℚ) :
    spectrogram_local_max S tn fn d thr = Except.error GSErr.valueError ↔
      thr < matMin S := by
  unfold spectrogram_local_max
  split
  next h => simp [h]
  next h => simp [h]

/-- Claim C5.  The code documents that the input dataframe only needs the
columns path_audio and time, but the progress print reads the column
fname; on a dataframe carrying exactly the two documented columns and a
perfectly readable recording, the attribute access raises and the pipeline
never completes. -/
theorem claim5_thm :
    graphical_soundscape 1 2
      [⟨"a.wav", "08", none,
        some ⟨[[0, 0, 0], [0, 10, 0], [0, 0, 0]], [0, 1, 2], [0, 100, 200]⟩⟩] =
      Except.error GSErr.attributeError := by
  rfl

/-- Claim C2.  The spec says a recording that fails to load is logged and
skipped and the run continues with a count of skipped files.  The loop has
no exception handling: with a corpus of one unreadable recording followed
by one perfectly good one, the whole run aborts with the propagated load
error and no matrix is produced at all. -/
theorem claim2_cex :
    graphical_soundscape 1 1
      [⟨"bad.wav", "09", some "bad.wav", none⟩,
       ⟨"a.wav", "08", some "a.wav",
        some ⟨[[0, 0, 0], [0, 10, 0], [0, 0, 0]], [0, 1, 2], [0, 100, 200]⟩⟩] =
      Except.error GSErr.ioError := by
  rfl

/-- Claim C2, amended.  A recording on which the per-recording body raises
(be it a load failure or any other error) aborts the entire run: whenever
every recording before it processes fine, graphical_soundscape returns the
propagated error, producing neither a matrix nor a count of skipped
files. -/
theorem claim2_thm (d : ℕ) (thr : ℚ) (df₁ df₂ : List Rec) (r : Rec) (e : GSErr)
    (h₁ : ∀ x ∈ df₁, ∃ row, processRec d thr x = Except.ok row)
    (hr : processRec d thr r = Except.error e) :
    graphical_soundscape d thr (df₁ ++ r :: df₂) = Except.error e := by
  unfold graphical_soundscape
  rw [mapME_error_append df₂ h₁ hr]

/-- Witness for claim C2: a good recording followed by an unreadable one
aborts the run with the IO error. -/
theorem claim2_wit :
    graphical_soundscape 1 1
      ([⟨"a.wav", "08", some "a.wav",
         some ⟨[[0, 0, 0], [0, 10, 0], [0, 0, 0]], [0, 1, 2], [0, 100, 200]⟩⟩] ++
       ⟨"bad.wav", "09", some "bad.wav", none⟩ :: []) =
      Except.error GSErr.ioError := by
  refine claim2_thm 1 1 _ [] _ GSErr.ioError ?_ rfl
  intro x hx
  rcases List.mem_singleton.mp hx with rfl
  exact ⟨[0, 1/3, 0], rfl⟩

/-! Helper lemmas about constant matrices and the peak mask. -/

theorem length_constMat (R C : ℕ) (c : ℚ) : (constMat R C c).length = R := by
  simp [constMat]

theorem nCols_constMat {R : ℕ} (C : ℕ) (c : ℚ) (hR : 0 < R) :
    nCols (constMat R C c) = C := by
  obtain ⟨R', rfl⟩ : ∃ R', R = R' + 1 := ⟨R - 1, (Nat.succ_pred_eq_of_pos hR).symm⟩
  simp [nCols, constMat, List.replicate_succ]

theorem cell_constMat {R C i j : ℕ} (c : ℚ) (hi : i < R) (hj : j < C) :
    cell (constMat R C c) i j = c := by
  simp [cell, constMat, List.getD_eq_getElem?_getD, List.getElem?_replicate, hi, hj]

theorem foldr_max_const {c : ℚ} :
    ∀ {l : List ℚ}, (∀ x ∈ l, x = c) → l.foldr max c = c := by
  intro l
  induction l with
  | nil => intro _; rfl
  | cons a t ih =>
      intro h
      rw [List.foldr_cons, ih (fun x hx => h x (List.mem_cons_of_mem a hx)),
        h a (List.mem_cons_self a t)]
      exact max_self c

theorem maxFilter_constMat {R C i j : ℕ} (c : ℚ) (d : ℕ) (hi : i < R) (hj : j < C) :
    maxFilter (constMat R C c) d i j = c := by
  unfold maxFilter
  rw [cell_constMat c hi hj]
  apply foldr_max_const
  intro x hx
  obtain ⟨p, hp, rfl⟩ := List.mem_map.mp hx
  have h1 : p.1 ∈ (List.range (constMat R C c).length).filter
      (fun a => i ≤ a + d && a ≤ i + d) := (List.mem_product.mp hp).1
  have h2 : p.2 ∈ (List.range (nCols (constMat R C c))).filter
      (fun b => j ≤ b + d && b ≤ j + d) := (List.mem_product.mp hp).2
  have hp1 : p.1 < R := by
    have := List.mem_range.mp (List.mem_filter.mp h1).1
    rwa [length_constMat] at this
  have hp2 : p.2 < C := by
    have := List.mem_range.mp (List.mem_filter.mp h2).1
    rwa [nCols_constMat C c (Nat.pos_of_ne_zero (by omega))] at this
  exact cell_constMat c hp1 hp2

theorem allWindowMax_constMat (R C : ℕ) (c : ℚ) (d : ℕ) :
    allWindowMax (constMat R C c) d = true := by
  simp only [allWindowMax, List.all_eq_true, isWindowMax, decide_eq_true_eq]
  intro i hi j hj
  rw [List.mem_range, length_constMat] at hi
  rw [List.mem_range, nCols_constMat C c (Nat.pos_of_ne_zero (by omega))] at hj
  rw [cell_constMat c hi hj, maxFilter_constMat c d hi hj]

theorem flatten_constMat (R C : ℕ) (c : ℚ) :
    (constMat R C c).flatten = List.replicate (R * C) c := by
  induction R with
  | zero => simp [constMat]
  | succ n ih =>
      rw [show (n + 1) * C = C + n * C by ring]
      simp only [constMat, List.replicate_succ, List.flatten_cons,
        List.replicate_add]
      rw [show List.replicate n (List.replicate C c) = constMat n C c from rfl, ih]

theorem foldl_min_replicate (c : ℚ) : ∀ n, (List.replicate n c).foldl min c = c := by
  intro n
  induction n with
  | zero => rfl
  | succ m ih => rw [List.replicate_succ, List.foldl_cons, min_self]; exact ih

theorem matMin_constMat {R C : ℕ} (c : ℚ) (hR : 0 < R) (hC : 0 < C) :
    matMin (constMat R C c) = c := by
  unfold matMin
  rw [flatten_constMat]
  obtain ⟨m, hm⟩ : ∃ m, R * C = m + 1 :=
    ⟨R * C - 1, (Nat.succ_pred_eq_of_pos (Nat.mul_pos hR hC)).symm⟩
  rw [hm, List.replicate_succ]
  show (Option.some ((List.replicate m c).foldl min c)).getD 0 = c
  rw [foldl_min_replicate]
  rfl

/-- Claim C9.  The spec scenario asks for exactly one peak on a flat
spectrogram with a threshold strictly below the constant.  The code
instead raises: the threshold is strictly below the spectrogram minimum
(which on a flat spectrogram equals the constant), so the validation
ValueError fires and nothing is computed; the underlying peak finder would
moreover return no peaks at all on a flat image. -/
theorem claim9_cex :
    spectrogram_local_max (constMat 5 5 3) [0, 1, 2, 3, 4] [0, 100, 200, 300, 400]
        1 1 = Except.error GSErr.valueError ∧
    peak_local_max (constMat 5 5 3) 1 1 = [] := by
  exact ⟨rfl, rfl⟩

/-- Claim C9, amended.  On a flat (constant) spectrogram with positive
min_distance the peak finder emits no peaks at all (never one per cell,
and also never exactly one), and a threshold strictly below the constant
additionally makes spectrogram_local_max raise the configuration
ValueError, because on a flat spectrogram such a threshold is below the
spectrogram minimum. -/
theorem claim9_thm (R C : ℕ) (c : ℚ) (d : ℕ) (thr : ℚ) (tn fn : List ℚ)
    (hd : 1 ≤ d) :
    peak_local_max (constMat R C c) d thr = [] ∧
    (0 < R → 0 < C → thr < c →
      spectrogram_local_max (constMat R C c) tn fn d thr =
        Except.error GSErr.valueError) := by
  constructor
  · have hcand : rasterCandidates (constMat R C c) d thr = [] := by
      rw [rasterCandidates, List.filter_eq_nil_iff]
      intro p hp
      by_cases hone : numel (constMat R C c) = 1
      · have hlen : (constMat R C c).length = 1 := by
          have := hone
          rw [numel] at this
          exact Nat.eq_one_of_mul_eq_one_right this
        have hnb : ¬ (p.1 + d < (constMat R C c).length) := by
          rw [hlen]; omega
        simp [maskKept, hone, hnb]
      · have hd0 : ¬ d = 0 := by omega
        simp [maskKept, hone, hd0, allWindowMax_constMat]
    unfold peak_local_max sortedCandidates
    rw [hcand]
    rfl
  · intro hR hC hthr
    unfold spectrogram_local_max
    rw [matMin_constMat c hR hC]
    simp [hthr]

/-- Witness for claim C9 on a concrete flat five by five spectrogram. -/
theorem claim9_wit :
    peak_local_max (constMat 5 5 3) 1 1 = [] ∧
    spectrogram_local_max (constMat 5 5 3) [0, 1, 2, 3, 4] [0, 100, 200, 300, 400]
        1 1 = Except.error GSErr.valueError := by
  have h := claim9_thm 5 5 3 1 1 [0, 1, 2, 3, 4] [0, 100, 200, 300, 400] (by decide)
  exact ⟨h.1, h.2 (by decide) (by decide) (by decide)⟩

/-! Membership in the greedy spacing pass. -/

theorem mem_ensureSpacingAux (d : ℕ) :
    ∀ (n : ℕ) (acc l : List (ℕ × ℕ)) (x : ℕ × ℕ),
      x ∈ ensureSpacingAux d n acc l → x ∈ acc ∨ x ∈ l := by
  intro n
  induction n with
  | zero =>
      intro acc l x hx
      rw [ensureSpacingAux] at hx
      exact Or.inl (List.mem_reverse.mp hx)
  | succ n ih =>
      intro acc l x hx
      cases l with
      | nil =>
          rw [ensureSpacingAux] at hx
          exact Or.inl (List.mem_reverse.mp hx)
      | cons p rest =>
          rw [ensureSpacingAux] at hx
          rcases ih _ _ x hx with h | h
          · rcases List.mem_cons.mp h with rfl | h
            · exact Or.inr (List.mem_cons_self _ _)
            · exact Or.inl h
          · exact Or.inr (List.mem_cons_of_mem _ (List.mem_filter.mp h).1)

theorem maskKept_of_mem_peak {S : List (List ℚ)} {d : ℕ} {thr : ℚ} {p : ℕ × ℕ}
    (hp : p ∈ peak_local_max S d thr) : maskKept S d thr p.1 p.2 = true := by
  unfold peak_local_max ensureSpacing at hp
  rcases mem_ensureSpacingAux d _ _ _ _ hp with h | h
  · cases h
  · have h2 : p ∈ rasterCandidates S d thr :=
      ((List.perm_insertionSort _ _).mem_iff).mp h
    exact (List.mem_filter.mp h2).2

/-- Claim C10.  With its default settings (exclude_border defaulting to
min_distance) the peak finder never returns a peak whose raw index lies in
the first or last min_distance rows or columns of the spectrogram: every
returned peak sits at least min_distance cells away from every border. -/
theorem claim10_thm (S : List (List ℚ)) (d : ℕ) (thr : ℚ) (p : ℕ × ℕ)
    (hp : p ∈ peak_local_max S d thr) :
    d ≤ p.1 ∧ p.1 + d < S.length ∧ d ≤ p.2 ∧ p.2 + d < nCols S := by
  have h := maskKept_of_mem_peak hp
  simp only [maskKept, Bool.and_eq_true, decide_eq_true_eq] at h
  exact ⟨h.2.1.1.1, h.2.1.1.2, h.2.1.2, h.2.2⟩

/-- Witness for claim C10: the single interior spike of a five by five
spectrogram is returned and satisfies the border bounds. -/
theorem claim10_wit :
    (2, 2) ∈ peak_local_max
        [[0, 0, 0, 0, 0], [0, 0, 0, 0, 0], [0, 0, 10, 0, 0],
         [0, 0, 0, 0, 0], [0, 0, 0, 0, 0]] 1 (-1) ∧
    (1 ≤ 2 ∧ 2 + 1 < ([[0, 0, 0, 0, 0], [0, 0, 0, 0, 0], [0, 0, 10, 0, 0],
         [0, 0, 0, 0, 0], [0, 0, 0, 0, 0]] : List (List ℚ)).length ∧
     1 ≤ 2 ∧ 2 + 1 < nCols [[0, 0, 0, 0, 0], [0, 0, 0, 0, 0], [0, 0, 10, 0, 0],
         [0, 0, 0, 0, 0], [0, 0, 0, 0, 0]]) := by
  exact ⟨by decide, claim10_thm _ 1 (-1) (2, 2) (by decide)⟩

theorem chebDist_comm (p q : ℕ × ℕ) : chebDist p q = chebDist q p := by
  simp [chebDist, Nat.dist_comm]

theorem pairwise_ensureSpacingAux (d : ℕ) :
    ∀ (n : ℕ) (acc l : List (ℕ × ℕ)),
      acc.Pairwise (fun p q => d ≤ chebDist p q) →
      (∀ a ∈ acc, ∀ x ∈ l, d ≤ chebDist a x) →
      (ensureSpacingAux d n acc l).Pairwise (fun p q => d ≤ chebDist p q) := by
  intro n
  induction n with
  | zero =>
      intro acc l h1 _
      rw [ensureSpacingAux, List.pairwise_reverse]
      exact h1.imp (fun h => by rwa [chebDist_comm])
  | succ n ih =>
      intro acc l h1 h2
      cases l with
      | nil =>
          rw [ensureSpacingAux, List.pairwise_reverse]
          exact h1.imp (fun h => by rwa [chebDist_comm])
      | cons p rest =>
          rw [ensureSpacingAux]
          apply ih
          · exact List.Pairwise.cons
              (fun a ha => by
                rw [chebDist_comm]
                exact h2 a ha p (List.mem_cons_self _ _)) h1
          · intro a ha x hx
            have hx' := List.mem_filter.mp hx
            rcases List.mem_cons.mp ha with rfl | ha
            · exact of_decide_eq_true hx'.2
            · exact h2 a ha x (List.mem_cons_of_mem _ hx'.1)

theorem peak_bounds {S : List (List ℚ)} {d : ℕ} {thr : ℚ} {p : ℕ × ℕ}
    (hp : p ∈ peak_local_max S d thr) :
    p.1 < S.length ∧ p.2 < nCols S := by
  have h := maskKept_of_mem_peak hp
  simp only [maskKept, Bool.and_eq_true, decide_eq_true_eq] at h
  obtain ⟨-, ⟨⟨-, h2⟩, -⟩, h4⟩ := h
  exact ⟨by omega, by omega⟩

/-- Claim C6.  On a spectrogram whose axis vectors match its shape, every
frequency coordinate that spectrogram_local_max returns is a literal
member of the frequency axis, every time coordinate a literal member of
the time axis, and the underlying peaks are pairwise at least min_distance
cells apart in Chebyshev distance over raw index space. -/
theorem claim6_thm (S : List (List ℚ)) (tn fn : List ℚ) (d : ℕ) (thr : ℚ)
    (pt pf : List ℚ) (hd : 0 < d) (hfn : fn.length = S.length)
    (htn : tn.length = nCols S)
    (h : spectrogram_local_max S tn fn d thr = Except.ok (pt, pf)) :
    (∀ x ∈ pf, x ∈ fn) ∧ (∀ x ∈ pt, x ∈ tn) ∧
    (peak_local_max S d thr).Pairwise (fun p q => d ≤ chebDist p q) := by
  unfold spectrogram_local_max at h
  split at h
  · cases h
  · rw [Except.ok.injEq, Prod.mk.injEq] at h
    obtain ⟨h1, h2⟩ := h
    refine ⟨?_, ?_, ?_⟩
    · intro x hx
      rw [← h2] at hx
      obtain ⟨p, hp, rfl⟩ := List.mem_map.mp hx
      have hb := (peak_bounds hp).1
      rw [List.getD_eq_getElem fn 0 (by omega)]
      exact List.getElem_mem _
    · intro x hx
      rw [← h1] at hx
      obtain ⟨p, hp, rfl⟩ := List.mem_map.mp hx
      have hb := (peak_bounds hp).2
      rw [List.getD_eq_getElem tn 0 (by omega)]
      exact List.getElem_mem _
    · unfold peak_local_max ensureSpacing
      apply pairwise_ensureSpacingAux
      · exact List.Pairwise.nil
      · intro a ha; cases ha

/-- Witness for claim C6 on a five by five spectrogram with one interior
spike above the threshold. -/
theorem claim6_wit :
    (∀ x ∈ ([200] : List ℚ), x ∈ ([0, 100, 200, 300, 400] : List ℚ)) ∧
    (∀ x ∈ ([2] : List ℚ), x ∈ ([0, 1, 2, 3, 4] : List ℚ)) ∧
    (peak_local_max
        [[0, 0, 0, 0, 0], [0, 0, 0, 0, 0], [0, 0, 10, 0, 0],
         [0, 0, 0, 0, 0], [0, 0, 0, 0, 0]] 1 1).Pairwise
      (fun p q => 1 ≤ chebDist p q) :=
  claim6_thm
    [[0, 0, 0, 0, 0], [0, 0, 0, 0, 0], [0, 0, 10, 0, 0],
     [0, 0, 0, 0, 0], [0, 0, 0, 0, 0]]
    [0, 1, 2, 3, 4] [0, 100, 200, 300, 400] 1 1 [2] [200]
    (by decide) (by decide) (by decide) (by rfl)

/-! Helper lemmas for the density-row encoding. -/

theorem sublist_of_subset_sorted :
    ∀ (l₂ l₁ : List ℚ), l₁.Sorted (· < ·) → l₂.Sorted (· < ·) →
      (∀ x ∈ l₁, x ∈ l₂) → l₁.Sublist l₂ := by
  intro l₂
  induction l₂ with
  | nil =>
      intro l₁ _ _ hsub
      cases l₁ with
      | nil => exact List.nil_sublist _
      | cons a t => exact absurd (hsub a (List.mem_cons_self a t)) (List.not_mem_nil a)
  | cons b s ih =>
      intro l₁ h₁ h₂ hsub
      cases l₁ with
      | nil => exact List.nil_sublist _
      | cons a t =>
          obtain ⟨halt, ht⟩ := List.sorted_cons.mp h₁
          obtain ⟨hbs, hs⟩ := List.sorted_cons.mp h₂
          by_cases hab : a = b
          · subst hab
            have hts : ∀ x ∈ t, x ∈ s := by
              intro x hx
              rcases List.mem_cons.mp (hsub x (List.mem_cons_of_mem a hx)) with rfl | h
              · exact absurd (halt x hx) (lt_irrefl x)
              · exact h
            exact List.Sublist.cons₂ a (ih t ht hs hts)
          · have has : a ∈ s := by
              rcases List.mem_cons.mp (hsub a (List.mem_cons_self a t)) with h | h
              · exact absurd h hab
              · exact h
            have hall : ∀ x ∈ a :: t, x ∈ s := by
              intro x hx
              rcases List.mem_cons.mp hx with rfl | hxt
              · exact has
              · rcases List.mem_cons.mp (hsub x (List.mem_cons_of_mem a hxt)) with rfl | h
                · exact absurd (lt_trans (hbs a has) (halt x hxt)) (lt_irrefl x)
                · exact h
            exact List.Sublist.cons b (ih (a :: t) h₁ hs hall)

theorem assignCounts_spec (M : List ℚ) (g : ℚ → ℚ) :
    ∀ (fn rem : List ℚ),
      (∀ x ∈ fn, (x ∈ M ↔ x ∈ rem)) → rem.Sublist fn → fn.Sorted (· < ·) →
      assignCounts M fn (rem.map g) =
        some (fn.map (fun f => if f ∈ M then g f else 0)) := by
  intro fn
  induction fn with
  | nil =>
      intro rem _ hsub _
      have h := List.sublist_nil.mp hsub
      subst h
      rfl
  | cons f fs ih =>
      intro rem hmem hsub hsort
      obtain ⟨hffs, hfs⟩ := List.sorted_cons.mp hsort
      cases rem with
      | nil =>
          have hfM : f ∉ M := fun h => by
            simpa using (hmem f (List.mem_cons_self f fs)).mp h
          rw [List.map_nil, assignCounts, if_neg hfM,
            show ([] : List ℚ) = List.map g [] from rfl,
            ih [] (fun x hx => hmem x (List.mem_cons_of_mem f hx))
              (List.nil_sublist fs) hfs]
          simp [hfM]
      | cons u us =>
          cases hsub with
          | cons a hsub' =>
              have hfrem : f ∉ u :: us := by
                intro hf
                exact absurd (hffs f (hsub'.subset hf)) (lt_irrefl f)
              have hfM : f ∉ M :=
                fun h => hfrem ((hmem f (List.mem_cons_self f fs)).mp h)
              rw [List.map_cons, assignCounts, if_neg hfM, ← List.map_cons,
                ih (u :: us) (fun x hx => hmem x (List.mem_cons_of_mem f hx))
                  hsub' hfs]
              simp [hfM]
          | cons₂ a hsub' =>
              have hfM : f ∈ M :=
                (hmem f (List.mem_cons_self f fs)).mpr (List.mem_cons_self f us)
              have hm : ∀ x ∈ fs, (x ∈ M ↔ x ∈ us) := by
                intro x hx
                constructor
                · intro hxM
                  rcases List.mem_cons.mp
                      ((hmem x (List.mem_cons_of_mem f hx)).mp hxM) with h | h
                  · exact absurd (h ▸ hffs x hx) (lt_irrefl f)
                  · exact h
                · intro hxus
                  exact (hmem x (List.mem_cons_of_mem f hx)).mpr
                    (List.mem_cons_of_mem f hxus)
              rw [List.map_cons, assignCounts, if_pos hfM, ih us hm hsub' hfs]
              simp [hfM]

theorem count_peak_eq {fn pf : List ℚ} (T : ℕ) (hfn : fn.Sorted (· < ·))
    (hpf : ∀ v ∈ pf, v ∈ fn) :
    count_peak fn pf T =
      some (fn.map (fun f =>
        if f ∈ pf then (pf.count f : ℚ) / (T : ℚ) else 0)) := by
  have hmemU : ∀ x : ℚ, x ∈ npUnique pf ↔ x ∈ pf := by
    intro x
    rw [npUnique, (List.perm_insertionSort _ _).mem_iff, List.mem_dedup]
  have hUnodup : (npUnique pf).Nodup :=
    ((List.perm_insertionSort _ _).nodup_iff).mpr (List.nodup_dedup pf)
  have hUsorted : (npUnique pf).Sorted (· < ·) :=
    (List.sorted_insertionSort _ _).lt_of_le hUnodup
  have hsub : (npUnique pf).Sublist fn :=
    sublist_of_subset_sorted fn (npUnique pf) hUsorted hfn
      (fun x hx => hpf x ((hmemU x).mp hx))
  unfold count_peak
  rw [assignCounts_spec (npUnique pf) (fun v => (pf.count v : ℚ) / (T : ℚ))
    fn (npUnique pf) (fun x _ => Iff.rfl) hsub hfn]
  congr 1
  apply List.map_congr_left
  intro a _
  by_cases h : a ∈ pf
  · rw [if_pos ((hmemU a).mpr h), if_pos h]
  · rw [if_neg (fun hh => h ((hmemU a).mp hh)), if_neg h]

/-- Claim C7.  The encoded density row is indexed by the full frequency
axis: one value per axis entry, equal to the peak count at that bin
divided by the number of time frames where peaks occurred and exactly zero
at every bin with no peaks; an empty peak set yields the all-zero row over
the full axis. -/
theorem claim7_thm (fn pf : List ℚ) (T : ℕ) (hfn : fn.Sorted (· < ·))
    (hpf : ∀ v ∈ pf, v ∈ fn) :
    count_peak fn pf T =
      some (fn.map (fun f =>
        if f ∈ pf then (pf.count f : ℚ) / (T : ℚ) else 0)) ∧
    count_peak fn [] T = some (fn.map (fun _ => (0 : ℚ))) := by
  refine ⟨count_peak_eq T hfn hpf, ?_⟩
  rw [count_peak_eq T hfn (fun v hv => absurd hv (List.not_mem_nil v))]
  simp

/-- Witness for claim C7: three bins, two of them carrying peaks. -/
theorem claim7_wit :
    count_peak [1, 2, 3] [2, 2, 3] 4 =
      some (([1, 2, 3] : List ℚ).map (fun f =>
        if f ∈ ([2, 2, 3] : List ℚ)
        then ((([2, 2, 3] : List ℚ).count f : ℚ) / (4 : ℚ)) else 0)) :=
  (claim7_thm [1, 2, 3] [2, 2, 3] 4 (by decide) (by decide)).1

/-- Claim C8.  The spec says every encoded value lies in the unit interval
for any peak set whatsoever.  That is false: the normalizer is the number
of time frames, so a peak set that repeats one frequency more often than
there are time frames produces a value above one.  Here three peaks at the
single bin against two time frames encode to three halves. -/
theorem claim8_cex :
    count_peak [1] [1, 1, 1] 2 = some [3 / 2] ∧ ¬ ((3 : ℚ) / 2 ≤ 1) := by
  constructor
  · rfl
  · norm_num

/-- Claim C8, amended.  For every peak set in which no frequency occurs
more often than the number of time frames (as is the case for every peak
set the detector can produce, since peaks at one frequency bin have
distinct time frames), all encoded density values lie in the closed unit
interval. -/
theorem claim8_thm (fn pf : List ℚ) (T : ℕ) (hfn : fn.Sorted (· < ·))
    (hpf : ∀ v ∈ pf, v ∈ fn) (hcnt : ∀ f, pf.count f ≤ T) :
    ∃ row, count_peak fn pf T = some row ∧ ∀ v ∈ row, 0 ≤ v ∧ v ≤ 1 := by
  refine ⟨_, count_peak_eq T hfn hpf, ?_⟩
  intro v hv
  obtain ⟨f, _, rfl⟩ := List.mem_map.mp hv
  by_cases h : f ∈ pf
  · rw [if_pos h]
    constructor
    · exact div_nonneg (Nat.cast_nonneg _) (Nat.cast_nonneg _)
    · rcases Nat.eq_zero_or_pos T with rfl | hT
      · have h0 : pf.count f = 0 := Nat.le_zero.mp (hcnt f)
        rw [h0]
        norm_num
      · rw [div_le_one (by exact_mod_cast hT)]
        exact_mod_cast hcnt f
  · rw [if_neg h]
    norm_num

/-- Witness for claim C8: one peak at the second of two bins against three
time frames. -/
theorem claim8_wit :
    ∃ row, count_peak [1, 2] [2] 3 = some row ∧ ∀ v ∈ row, 0 ≤ v ∧ v ≤ 1 :=
  claim8_thm [1, 2] [2] 3 (by decide) (by decide)
    (fun f => le_trans (List.count_le_length f [2]) (by norm_num))

/-! Helper lemmas for the hour grouping and its mean. -/

instance : LeftCommutative (Max.max : ℕ → ℕ → ℕ) :=
  ⟨fun a b c => Nat.max_left_comm a b c⟩

theorem hourAggregate_ok {l : List (String × List ℚ)}
    (hl : ∀ p ∈ l, (parseHour p.1).isSome) :
    hourAggregate l = Except.ok
      (groupbyMean (l.map (fun p => ((parseHour p.1).getD 0, p.2)))) := by
  have hm : mapME (fun p : String × List ℚ =>
      match parseHour p.1 with
      | some h => Except.ok h
      | none => Except.error GSErr.valueError) l =
      Except.ok (l.map (fun p => (parseHour p.1).getD 0)) := by
    apply mapME_ok_of
    intro p hp
    obtain ⟨k, hk⟩ := Option.isSome_iff_exists.mp (hl p hp)
    simp [hk]
  unfold hourAggregate
  rw [hm]
  show Except.ok (groupbyMean
    ((l.map (fun p => (parseHour p.1).getD 0)).zip (l.map Prod.snd))) = _
  rw [List.zip_map']

theorem mapME_hours_error :
    ∀ {l : List (String × List ℚ)}, (∃ p ∈ l, parseHour p.1 = none) →
      mapME (fun p : String × List ℚ =>
        match parseHour p.1 with
        | some h => Except.ok h
        | none => Except.error GSErr.valueError) l =
      Except.error GSErr.valueError := by
  intro l
  induction l with
  | nil => rintro ⟨p, hp, -⟩; cases hp
  | cons a t ih =>
      rintro ⟨p, hp, hpn⟩
      rcases List.mem_cons.mp hp with rfl | hpt
      · simp [mapME, hpn]
      · rcases hpa : parseHour a.1 with - | k
        · simp [mapME, hpa]
        · simp [mapME, hpa, ih ⟨p, hpt, hpn⟩]

theorem groupbyMean_keys (l : List (ℕ × List ℚ)) :
    (groupbyMean l).map Prod.fst =
      ((l.map Prod.fst).dedup).insertionSort (· ≤ ·) := by
  unfold groupbyMean
  rw [List.map_map]
  exact List.map_id _

theorem groupbyMean_row {l : List (ℕ × List ℚ)} {h : ℕ} {row : List ℚ}
    (hmem : (h, row) ∈ groupbyMean l) :
    row = colMean ((l.filter (fun p => p.1 == h)).map Prod.snd) := by
  unfold groupbyMean at hmem
  obtain ⟨h', _, heq⟩ := List.mem_map.mp hmem
  rw [Prod.mk.injEq] at heq
  obtain ⟨rfl, rfl⟩ := heq
  rfl

theorem colMean_perm {rows₁ rows₂ : List (List ℚ)} (h : rows₁.Perm rows₂) :
    colMean rows₁ = colMean rows₂ := by
  unfold colMean
  rw [(h.map List.length).foldr_eq 0, h.length_eq]
  apply List.map_congr_left
  intro j _
  rw [(h.map (fun r => r.getD j 0)).sum_eq]

theorem groupbyMean_perm {l₁ l₂ : List (ℕ × List ℚ)} (h : l₁.Perm l₂) :
    groupbyMean l₁ = groupbyMean l₂ := by
  unfold groupbyMean
  have hkeys : ((l₁.map Prod.fst).dedup).insertionSort (· ≤ ·) =
      ((l₂.map Prod.fst).dedup).insertionSort (· ≤ ·) := by
    refine List.eq_of_perm_of_sorted ?_ (List.sorted_insertionSort _ _)
      (List.sorted_insertionSort _ _)
    exact (List.perm_insertionSort _ _).trans
      (((h.map Prod.fst).dedup).trans (List.perm_insertionSort _ _).symm)
  rw [hkeys]
  apply List.map_congr_left
  intro k _
  rw [colMean_perm ((h.filter (fun p => p.1 == k)).map Prod.snd)]

theorem hourAggregate_perm {l₁ l₂ : List (String × List ℚ)} (h : l₁.Perm l₂) :
    hourAggregate l₁ = hourAggregate l₂ := by
  by_cases hall : ∀ p ∈ l₁, (parseHour p.1).isSome
  · have hall₂ : ∀ p ∈ l₂, (parseHour p.1).isSome :=
      fun p hp => hall p (h.mem_iff.mpr hp)
    rw [hourAggregate_ok hall, hourAggregate_ok hall₂,
      groupbyMean_perm (h.map (fun p => ((parseHour p.1).getD 0, p.2)))]
  · push_neg at hall
    obtain ⟨p, hp, hps⟩ := hall
    have hpn : parseHour p.1 = none := Option.not_isSome_iff_eq_none.mp hps
    unfold hourAggregate
    rw [mapME_hours_error ⟨p, hp, hpn⟩,
      mapME_hours_error ⟨p, h.mem_iff.mp hp, hpn⟩]

/-- Specification-side description of the aggregation result for one
input table, following the words of the spec: the result has one row per
hour label occurring in the corpus (hour labels absent from the corpus are
absent from the result), with no duplicate hour rows, and the row of an
hour is the column-wise arithmetic mean of the density rows of exactly the
recordings carrying that hour. -/
def aggregateSpec (l : List (String × List ℚ)) : Prop :=
  ∃ m, hourAggregate l = Except.ok m ∧
    (m.map Prod.fst).Nodup ∧
    (∀ h, h ∈ m.map Prod.fst ↔ ∃ p ∈ l, parseHour p.1 = some h) ∧
    (∀ h row, (h, row) ∈ m →
      row = colMean ((l.filter (fun p => parseHour p.1 = some h)).map Prod.snd))

/-- Claim C3.  Whenever every time field yields an hour label, the
aggregated matrix has exactly one row per hour occurring in the corpus
(hour labels derived from the first two characters of the time field,
absent hours absent from the result), each row being the column-wise
arithmetic mean over the recordings of that hour; and on the three
recording scenario with hours 08, 08 and 14 the matrix is exactly the two
stated mean rows. -/
theorem claim3_thm :
    (∀ l : List (String × List ℚ),
      (∀ p ∈ l, (parseHour p.1).isSome) → aggregateSpec l) ∧
    hourAggregate
        [("08", [0, 1/2, 1]), ("08", [1/5, 1/2, 4/5]), ("14", [1, 1, 1])] =
      Except.ok [(8, [1/10, 1/2, 9/10]), (14, [1, 1, 1])] := by
  constructor
  · intro l hl
    refine ⟨groupbyMean (l.map (fun p => ((parseHour p.1).getD 0, p.2))),
      hourAggregate_ok hl, ?_, ?_, ?_⟩
    · rw [groupbyMean_keys]
      exact ((List.perm_insertionSort _ _).nodup_iff).mpr (List.nodup_dedup _)
    · intro h
      rw [groupbyMean_keys, (List.perm_insertionSort _ _).mem_iff,
        List.mem_dedup, List.map_map, List.mem_map]
      constructor
      · rintro ⟨p, hp, hph⟩
        obtain ⟨k, hk⟩ := Option.isSome_iff_exists.mp (hl p hp)
        refine ⟨p, hp, ?_⟩
        have : k = h := by simpa [hk] using hph
        rw [hk, this]
      · rintro ⟨p, hp, hph⟩
        exact ⟨p, hp, by simp [Function.comp, hph]⟩
    · intro h row hmem
      rw [groupbyMean_row hmem]
      congr 1
      rw [List.filter_map, List.map_map]
      have h2 : l.filter ((fun p : ℕ × List ℚ => p.1 == h) ∘
          (fun p : String × List ℚ => ((parseHour p.1).getD 0, p.2))) =
          l.filter (fun p => parseHour p.1 = some h) := by
        apply List.filter_congr
        intro p hp
        obtain ⟨k, hk⟩ := Option.isSome_iff_exists.mp (hl p hp)
        by_cases hkh : k = h
        · subst hkh
          simp [Function.comp, hk]
        · simp [Function.comp, hk, hkh]
      rw [h2]
      rfl
  · with_unfolding_all rfl

/-- Witness for claim C3 on a one-recording corpus. -/
theorem claim3_wit : aggregateSpec [("08", [(1 : ℚ)])] :=
  claim3_thm.1 [("08", [(1 : ℚ)])] (by decide)

/-- Claim C4.  The soundscape matrix is invariant under permutations of
the processing order of the recordings: whenever the run over one ordering
of the corpus succeeds with matrix m, the run over any reordering of the
same corpus succeeds with exactly the same matrix (same hour rows in the
same order, same cells), because grouping and the arithmetic mean are
order-insensitive. -/
theorem claim4_thm (d : ℕ) (thr : ℚ) (df₁ df₂ : List Rec)
    (m : List (ℕ × List ℚ)) (hperm : df₁.Perm df₂)
    (h : graphical_soundscape d thr df₁ = Except.ok m) :
    graphical_soundscape d thr df₂ = Except.ok m := by
  unfold graphical_soundscape at h ⊢
  rcases hm : mapME (processRec d thr) df₁ with e | rows₁
  · rw [hm] at h; cases h
  · rw [hm] at h
    have hall₁ := mapME_mem_ok hm
    have hall₂ : ∀ r ∈ df₂, ∃ b, processRec d thr r = Except.ok b :=
      fun r hr => hall₁ r (hperm.mem_iff.mpr hr)
    have hsucc : ∀ {df : List Rec},
        (∀ r ∈ df, ∃ b, processRec d thr r = Except.ok b) →
        ∀ r ∈ df, processRec d thr r =
          Except.ok (((processRec d thr r).toOption).getD []) := by
      intro df hdf r hr
      obtain ⟨b, hb⟩ := hdf r hr
      rw [hb]
      rfl
    have h₁ := mapME_ok_of (hsucc hall₁)
    have h₂ := mapME_ok_of (hsucc hall₂)
    have hrows : rows₁ = df₁.map (fun r => ((processRec d thr r).toOption).getD []) := by
      rw [h₁] at hm
      exact ((Except.ok.injEq _ _).mp hm).symm
    subst hrows
    rw [h₂]
    show hourAggregate
      ((df₂.map Rec.time).zip
        (df₂.map (fun r => ((processRec d thr r).toOption).getD []))) = Except.ok m
    have h' : hourAggregate
        ((df₁.map Rec.time).zip
          (df₁.map (fun r => ((processRec d thr r).toOption).getD []))) =
        Except.ok m := h
    rw [List.zip_map'] at h'
    rw [List.zip_map']
    exact (hourAggregate_perm ((hperm.map _).symm)).trans h'

/-- Witness for claim C4: swapping the two recordings of a concrete corpus
leaves the aggregated matrix unchanged. -/
theorem claim4_wit :
    graphical_soundscape 1 1
      [⟨"b.wav", "14", some "b.wav",
        some ⟨[[0, 0, 0], [0, 0, 0], [0, 0, 0]], [0, 1, 2], [0, 100, 200]⟩⟩,
       ⟨"a.wav", "08", some "a.wav",
        some ⟨[[0, 0, 0], [0, 10, 0], [0, 0, 0]], [0, 1, 2], [0, 100, 200]⟩⟩] =
      Except.ok [(8, [0, 1/3, 0]), (14, [0, 0, 0])] :=
  claim4_thm 1 1
    [⟨"a.wav", "08", some "a.wav",
      some ⟨[[0, 0, 0], [0, 10, 0], [0, 0, 0]], [0, 1, 2], [0, 100, 200]⟩⟩,
     ⟨"b.wav", "14", some "b.wav",
      some ⟨[[0, 0, 0], [0, 0, 0], [0, 0, 0]], [0, 1, 2], [0, 100, 200]⟩⟩]
    _ _ (List.Perm.swap _ _ _) (by with_unfolding_all rfl)

end GS
